import Mathlib

/-!
Shallow embedding of `voting_system.py`: a single-node voting blockchain with
proof-of-work mining, a hash-linked chain, and a ledger state machine keeping
voter and candidate lookup tables.

Modelling conventions:
- `hashlib.sha256(s.encode()).hexdigest()` is an opaque deterministic function
  of the input string; every definition and theorem is parameterized over it
  as `H : String → String`.
- Timestamps (`time.time()` samples) are externally injected naturals; each
  operation receives the samples it consumes as explicit arguments.
- The unbounded `while` loop in `Block.mine_block` is modelled with explicit
  fuel; a mining call that would not have terminated within the fuel yields
  `none`, so every terminating run of the Python code corresponds to a run of
  the model with enough fuel.
- Python dicts (insertion-ordered, string-keyed) are association lists; value
  update keeps the entry's position, insertion of a fresh key appends.
- The operations print a distinguishing message and return `False` on each
  error path; the distinct messages are modelled as constructors of
  `OpResult`.
-/

namespace VotingSystem

/-- String of `n` zero characters, modelling Python's `"0" * n`. -/
def zeros (n : Nat) : String := String.mk (List.replicate n '0')

/-- Characters removed at both ends by Python's `str.strip()`. -/
def isSpace (c : Char) : Bool :=
  c = ' ' || c = '\t' || c = '\n' || c = '\r' || c = '\x0b' || c = '\x0c'

/-- Drop leading whitespace characters. -/
def dropLeading : List Char → List Char
  | [] => []
  | c :: rest => if isSpace c then dropLeading rest else c :: rest

/-- Python's `str.strip()`: remove leading and trailing whitespace. -/
def strip (s : String) : String :=
  String.mk ((dropLeading ((dropLeading s.data).reverse)).reverse)

/-- Python's `str.startswith`. -/
def strStartsWith (s pre : String) : Bool :=
  pre.data.isPrefixOf s.data

/-- Data model `Voter` (`voting_system.py` lines 11-15). -/
structure Voter where
  voter_id : String
  name : String
  has_voted : Bool
deriving DecidableEq, Repr

/-- Data model `Candidate` (`voting_system.py` lines 17-20). -/
structure Candidate where
  candidate_id : String
  name : String
deriving DecidableEq, Repr

/-- Transaction payloads: the four dict shapes stored in `Transaction.payload`
(`asdict(voter)`, `asdict(candidate)`, the cast-vote dict, the genesis dict). -/
inductive Payload where
  | voterP (voter_id name : String) (has_voted : Bool)
  | candidateP (candidate_id name : String)
  | voteP (voter_id candidate_id : String)
  | genesisP (message : String)
deriving DecidableEq, Repr

/-- Data model `Transaction` (`voting_system.py` lines 22-26). -/
structure Transaction where
  tx_type : String
  payload : Payload
  timestamp : Nat
deriving DecidableEq, Repr

/-- Model of `Transaction.add_voter` (line 29): snapshots the voter via `asdict`. -/
def Transaction.add_voter (v : Voter) (t : Nat) : Transaction :=
  ⟨"ADD_VOTER", .voterP v.voter_id v.name v.has_voted, t⟩

/-- Model of `Transaction.add_candidate` (line 33). -/
def Transaction.add_candidate (c : Candidate) (t : Nat) : Transaction :=
  ⟨"ADD_CANDIDATE", .candidateP c.candidate_id c.name, t⟩

/-- Model of `Transaction.cast_vote` (line 37). -/
def Transaction.cast_vote (voter_id candidate_id : String) (t : Nat) : Transaction :=
  ⟨"CAST_VOTE", .voteP voter_id candidate_id, t⟩

/-- JSON string escaping as done by `json.dumps` for the characters that can
occur here (backslash and double quote; control characters are not modelled). -/
def jsonEscape (s : String) : String :=
  String.join (s.data.map fun c =>
    if c = '\\' then "\\\\" else if c = '"' then "\\\"" else String.singleton c)

/-- JSON rendering of a string literal. -/
def jsonStr (s : String) : String := "\"" ++ jsonEscape s ++ "\""

/-- JSON rendering of a boolean. -/
def jsonBool (b : Bool) : String := if b then "true" else "false"

/-- JSON rendering of a payload dict with keys in sorted order, as produced by
`json.dumps(..., sort_keys=True)` with default separators. -/
def Payload.json : Payload → String
  | .voterP vid nm hv =>
      "\x7b\"has_voted\": " ++ jsonBool hv ++ ", \"name\": " ++ jsonStr nm
        ++ ", \"voter_id\": " ++ jsonStr vid ++ "\x7d"
  | .candidateP cid nm =>
      "\x7b\"candidate_id\": " ++ jsonStr cid ++ ", \"name\": " ++ jsonStr nm ++ "\x7d"
  | .voteP vid cid =>
      "\x7b\"candidate_id\": " ++ jsonStr cid ++ ", \"voter_id\": " ++ jsonStr vid ++ "\x7d"
  | .genesisP msg =>
      "\x7b\"message\": " ++ jsonStr msg ++ "\x7d"

/-- JSON rendering of `asdict(tx)` with keys in sorted order
(payload < timestamp < tx_type). -/
def Transaction.json (tx : Transaction) : String :=
  "\x7b\"payload\": " ++ tx.payload.json ++ ", \"timestamp\": " ++ toString tx.timestamp
    ++ ", \"tx_type\": " ++ jsonStr tx.tx_type ++ "\x7d"

/-- The `tx_str` of `Block.calculate_hash` (line 54):
`json.dumps([asdict(tx) for tx in transactions], sort_keys=True)`. -/
def txListJson (txs : List Transaction) : String :=
  "[" ++ String.intercalate ", " (txs.map Transaction.json) ++ "]"

/-- Data model `Block` (`voting_system.py` lines 43-51): stored fields after
construction. -/
structure Block where
  index : Nat
  timestamp : Nat
  transactions : List Transaction
  previous_hash : String
  nonce : Nat
  difficulty : Nat
  hash : String
deriving DecidableEq, Repr

/-- The `block_string` of `Block.calculate_hash` (line 55): the f-string
concatenation of index, timestamp, tx_str, previous_hash, nonce, difficulty. -/
def blockString (index timestamp : Nat) (txs : List Transaction)
    (previous_hash : String) (nonce difficulty : Nat) : String :=
  toString index ++ toString timestamp ++ txListJson txs ++ previous_hash
    ++ toString nonce ++ toString difficulty

/-- Model of `Block.calculate_hash` (lines 53-56), with the SHA-256 hex digest
abstracted as `H`. -/
def Block.calculate_hash (H : String → String) (b : Block) : String :=
  H (blockString b.index b.timestamp b.transactions b.previous_hash b.nonce b.difficulty)

/-- The search loop of `Block.mine_block` (lines 58-64): starting at nonce `n`,
find the first nonce whose hash starts with `difficulty` zeros; `fuel` bounds
the number of attempts (the Python loop is unbounded). -/
def mineNonce (H : String → String) (index timestamp : Nat) (txs : List Transaction)
    (previous_hash : String) (difficulty : Nat) : Nat → Nat → Option Nat
  | 0, _ => none
  | fuel + 1, n =>
      if strStartsWith (H (blockString index timestamp txs previous_hash n difficulty))
          (zeros difficulty) then some n
      else mineNonce H index timestamp txs previous_hash difficulty fuel (n + 1)

/-- Model of `Block.__init__` (lines 44-51): fields are set, the timestamp is sampled
once (here injected as `timestamp`), nonce starts at 0, and `mine_block` fixes
the final nonce and hash. -/
def Block.make (H : String → String) (fuel : Nat) (index timestamp : Nat)
    (txs : List Transaction) (previous_hash : String) (difficulty : Nat) : Option Block :=
  match mineNonce H index timestamp txs previous_hash difficulty fuel 0 with
  | none => none
  | some n =>
      some ⟨index, timestamp, txs, previous_hash, n, difficulty,
        H (blockString index timestamp txs previous_hash n difficulty)⟩

/-- Association-list lookup, modelling `d[k]` / `k in d` on a Python dict. -/
def assocGet {α : Type} : List (String × α) → String → Option α
  | [], _ => none
  | (k, v) :: rest, key => if k == key then some v else assocGet rest key

/-- Dict assignment `d[k] = v`: update in place if the key exists, else append. -/
def assocSet {α : Type} : List (String × α) → String → α → List (String × α)
  | [], k, v => [(k, v)]
  | (k1, v1) :: rest, k, v =>
      if k1 == k then (k1, v) :: rest else (k1, v1) :: assocSet rest k v

/-- The in-place mutation `self.voters[voter_id].has_voted = True`
(line 140): flips the flag of the entry with the given key, keeping order. -/
def setVoted : List (String × Voter) → String → List (String × Voter)
  | [], _ => []
  | (k, v) :: rest, key =>
      if k == key then (k, { v with has_voted := true }) :: rest
      else (k, v) :: setVoted rest key

/-- Result of a mutating ledger operation: the code returns `False` after
printing one distinguishing message per error path, or `True` on success. -/
inductive OpResult where
  | success
  | emptyField
  | duplicateVoterId
  | duplicateCandidateId
  | unknownVoter
  | unknownCandidate
  | alreadyVoted
deriving DecidableEq, Repr

/-- Data model `Blockchain` (`voting_system.py` lines 77-82). -/
structure Blockchain where
  difficulty : Nat
  chain : List Block
  voters : List (String × Voter)
  candidates : List (String × Candidate)
deriving DecidableEq, Repr

/-- Model of `Blockchain.__init__` (lines 78-86): genesis transaction and mined genesis
block with `previous_hash = "0" * 64`; empty tables. `gTxT`/`gBlockT` are the
two `time.time()` samples. -/
def Blockchain.init (H : String → String) (fuel gTxT gBlockT difficulty : Nat) :
    Option Blockchain :=
  let genesis_tx : Transaction := ⟨"GENESIS", .genesisP "Voting chain initiated", gTxT⟩
  match Block.make H fuel 0 gBlockT [genesis_tx] (zeros 64) difficulty with
  | none => none
  | some g => some ⟨difficulty, [g], [], []⟩

/-- Model of `Blockchain.get_latest_block` (line 88): `self.chain[-1]`. -/
def Blockchain.get_latest_block (st : Blockchain) : Option Block :=
  st.chain.getLast?

/-- Model of `Blockchain._add_block` (lines 91-94): mine a block at index `len(chain)`
linked to the latest block's hash, and append it. -/
def Blockchain.add_block (H : String → String) (fuel blockT : Nat)
    (txs : List Transaction) (st : Blockchain) : Option Blockchain :=
  match st.chain.getLast? with
  | none => none
  | some last =>
      match Block.make H fuel st.chain.length blockT txs last.hash st.difficulty with
      | none => none
      | some b => some { st with chain := st.chain ++ [b] }

/-- Model of `Blockchain.add_voter` (lines 97-110). -/
def Blockchain.add_voter (H : String → String) (fuel txT blockT : Nat)
    (voter_id name : String) (st : Blockchain) : Option (OpResult × Blockchain) :=
  let voter_id := strip voter_id
  let name := strip name
  if voter_id.isEmpty || name.isEmpty then some (.emptyField, st)
  else if (assocGet st.voters voter_id).isSome then some (.duplicateVoterId, st)
  else
    let voter : Voter := ⟨voter_id, name, false⟩
    let st1 : Blockchain := { st with voters := st.voters ++ [(voter_id, voter)] }
    match Blockchain.add_block H fuel blockT [Transaction.add_voter voter txT] st1 with
    | none => none
    | some st2 => some (.success, st2)

/-- Model of `Blockchain.add_candidate` (lines 112-125). -/
def Blockchain.add_candidate (H : String → String) (fuel txT blockT : Nat)
    (candidate_id name : String) (st : Blockchain) : Option (OpResult × Blockchain) :=
  let candidate_id := strip candidate_id
  let name := strip name
  if candidate_id.isEmpty || name.isEmpty then some (.emptyField, st)
  else if (assocGet st.candidates candidate_id).isSome then some (.duplicateCandidateId, st)
  else
    let candidate : Candidate := ⟨candidate_id, name⟩
    let st1 : Blockchain := { st with candidates := st.candidates ++ [(candidate_id, candidate)] }
    match Blockchain.add_block H fuel blockT [Transaction.add_candidate candidate txT] st1 with
    | none => none
    | some st2 => some (.success, st2)

/-- Model of `Blockchain.cast_vote` (lines 128-143): voter existence, then candidate
existence, then the double-vote check; on success flip `has_voted` and append
one CAST_VOTE block. -/
def Blockchain.cast_vote (H : String → String) (fuel txT blockT : Nat)
    (voter_id candidate_id : String) (st : Blockchain) : Option (OpResult × Blockchain) :=
  let voter_id := strip voter_id
  let candidate_id := strip candidate_id
  match assocGet st.voters voter_id with
  | none => some (.unknownVoter, st)
  | some v =>
      if (assocGet st.candidates candidate_id).isNone then some (.unknownCandidate, st)
      else if v.has_voted then some (.alreadyVoted, st)
      else
        let st1 : Blockchain := { st with voters := setVoted st.voters voter_id }
        match Blockchain.add_block H fuel blockT
            [Transaction.cast_vote voter_id candidate_id txT] st1 with
        | none => none
        | some st2 => some (.success, st2)

/-- Outcome of `Blockchain.validate_chain`: valid, or invalid at the reported
block index (the code prints the index and returns `False`). -/
inductive ChainStatus where
  | valid
  | invalid (i : Nat)
deriving DecidableEq, Repr

/-- The loop of `Blockchain.validate_chain` (lines 148-158), carrying the
previous block and the current index: recomputed-hash check, proof-of-work
check, then link check, failing at the first violation. -/
def validateFrom (H : String → String) (pfx : String) :
    Block → List Block → Nat → ChainStatus
  | _, [], _ => .valid
  | prev, cur :: rest, i =>
      if cur.hash ≠ Block.calculate_hash H cur then .invalid i
      else if ¬ strStartsWith cur.hash pfx then .invalid i
      else if cur.previous_hash ≠ prev.hash then .invalid i
      else validateFrom H pfx cur rest (i + 1)

/-- Model of `Blockchain.validate_chain` (lines 146-160): scan from index 1. -/
def Blockchain.validate_chain (H : String → String) (st : Blockchain) : ChainStatus :=
  match st.chain with
  | [] => .valid
  | g :: rest => validateFrom H (zeros st.difficulty) g rest 1

/-- One requested ledger mutation, with the fuel and the two `time.time()`
samples it consumes. -/
inductive Op where
  | addVoter (id name : String) (fuel txT blockT : Nat)
  | addCandidate (id name : String) (fuel txT blockT : Nat)
  | castVote (vid cid : String) (fuel txT blockT : Nat)
deriving DecidableEq, Repr

/-- Dispatch one operation on the ledger. -/
def applyOp (H : String → String) (st : Blockchain) : Op → Option (OpResult × Blockchain)
  | .addVoter id name fuel txT blockT => st.add_voter H fuel txT blockT id name
  | .addCandidate id name fuel txT blockT => st.add_candidate H fuel txT blockT id name
  | .castVote vid cid fuel txT blockT => st.cast_vote H fuel txT blockT vid cid

/-- Run a sequence of operations, threading the state; the result of each
operation (success or error) is discarded, as the menu loop does. -/
def runOps (H : String → String) : Blockchain → List Op → Option Blockchain
  | st, [] => some st
  | st, op :: ops =>
      match applyOp H st op with
      | none => none
      | some (_, st1) => runOps H st1 ops

/-! ### Chain well-formedness -/

/-- A block is good relative to the expected previous hash: its stored hash is
the recomputed one, meets the proof-of-work target, and links correctly. -/
def goodBlock (H : String → String) (pfx ph : String) (b : Block) : Bool :=
  (b.hash == Block.calculate_hash H b) && strStartsWith b.hash pfx
    && (b.previous_hash == ph)

/-- Every block of the list is good, with links threaded from `ph`. -/
def goodChain (H : String → String) (pfx : String) : String → List Block → Bool
  | _, [] => true
  | ph, b :: rest => goodBlock H pfx ph b && goodChain H pfx b.hash rest

/-- Last element of a nonempty chain written with an explicit head. -/
def lastBlock (g : Block) : List Block → Block
  | [] => g
  | b :: rest => lastBlock b rest

/-- Hash of the last block, threaded from the hash `ph` of the head. -/
def tipHash (ph : String) : List Block → String
  | [] => ph
  | b :: rest => tipHash b.hash rest

/-! ### Replay of the chain into lookup tables -/

/-- Modelled from the spec: re-deriving the lookup tables by replaying
ADD_VOTER / ADD_CANDIDATE / CAST_VOTE transactions in chain order (the
repository has no replay routine; this follows §8 "Idempotence/replay",
building the tables from the transaction payloads and ignoring other
transaction types). -/
def replayTx (vs : List (String × Voter)) (cs : List (String × Candidate))
    (tx : Transaction) : List (String × Voter) × List (String × Candidate) :=
  if tx.tx_type == "ADD_VOTER" then
    match tx.payload with
    | .voterP vid nm hv => (assocSet vs vid ⟨vid, nm, hv⟩, cs)
    | _ => (vs, cs)
  else if tx.tx_type == "ADD_CANDIDATE" then
    match tx.payload with
    | .candidateP cid nm => (vs, assocSet cs cid ⟨cid, nm⟩)
    | _ => (vs, cs)
  else if tx.tx_type == "CAST_VOTE" then
    match tx.payload with
    | .voteP vid _ => (setVoted vs vid, cs)
    | _ => (vs, cs)
  else (vs, cs)

/-- Replay all transactions of one block, in order. -/
def replayBlock (acc : List (String × Voter) × List (String × Candidate))
    (b : Block) : List (String × Voter) × List (String × Candidate) :=
  b.transactions.foldl (fun a tx => replayTx a.1 a.2 tx) acc

/-- Replay a whole chain starting from empty tables. -/
def replayChain (chain : List Block) :
    List (String × Voter) × List (String × Candidate) :=
  chain.foldl replayBlock ([], [])

/-! ### The reachable-state invariant -/

/-- Chain shape invariant: nonempty, and every non-genesis block is good. -/
def ChainInv (H : String → String) (st : Blockchain) : Prop :=
  ∃ g rest, st.chain = g :: rest ∧ goodChain H (zeros st.difficulty) g.hash rest = true

/-- Table invariant: replaying the chain reproduces the cached tables. -/
def TableInv (st : Blockchain) : Prop :=
  replayChain st.chain = (st.voters, st.candidates)

/-- Combined invariant maintained by all ledger mutations. -/
def Inv (H : String → String) (st : Blockchain) : Prop :=
  ChainInv H st ∧ TableInv st

/-! ### Single-field tampering (C3) -/

/-- A change of exactly one stored field of a block. -/
inductive FieldChange where
  | chIndex (v : Nat)
  | chTimestamp (v : Nat)
  | chTransactions (v : List Transaction)
  | chPrev (v : String)
  | chNonce (v : Nat)
  | chDifficulty (v : Nat)
  | chHash (v : String)
deriving DecidableEq, Repr

/-- Apply a single-field change to a block, leaving all other fields intact. -/
def applyChange (b : Block) : FieldChange → Block
  | .chIndex v => { b with index := v }
  | .chTimestamp v => { b with timestamp := v }
  | .chTransactions v => { b with transactions := v }
  | .chPrev v => { b with previous_hash := v }
  | .chNonce v => { b with nonce := v }
  | .chDifficulty v => { b with difficulty := v }
  | .chHash v => { b with hash := v }

/-! ### Concrete instances used to witness the theorems -/

/-- Constant hash model: every digest is the one-character string "0", so any
positive difficulty up to 1 is met immediately. -/
def H0 : String → String := fun _ => "0"

/-- Genesis block mined under `H0` at difficulty 1 with both clock samples 0. -/
def gW : Block :=
  ⟨0, 0, [⟨"GENESIS", .genesisP "Voting chain initiated", 0⟩], zeros 64, 0, 1, "0"⟩

/-- Fresh ledger produced by `Blockchain.init H0 1 0 0 1`. -/
def stG : Blockchain := ⟨1, [gW], [], []⟩

/-- Block appended by registering voter V1/Alice on the fresh ledger. -/
def bW1 : Block :=
  ⟨1, 2, [⟨"ADD_VOTER", .voterP "V1" "Alice" false, 1⟩], "0", 0, 1, "0"⟩

/-- Ledger after `add_voter " V1 " " Alice "` on the fresh ledger. -/
def stW : Blockchain := ⟨1, [gW, bW1], [("V1", ⟨"V1", "Alice", false⟩)], []⟩

/-- Block appended by registering candidate C1/Rose. -/
def bC2 : Block :=
  ⟨2, 4, [⟨"ADD_CANDIDATE", .candidateP "C1" "Rose", 3⟩], "0", 0, 1, "0"⟩

/-- Ledger after also adding candidate C1/Rose. -/
def stWC : Blockchain :=
  ⟨1, [gW, bW1, bC2], [("V1", ⟨"V1", "Alice", false⟩)], [("C1", ⟨"C1", "Rose"⟩)]⟩

/-- Block appended when V1 votes for C1. -/
def bV3 : Block :=
  ⟨3, 6, [⟨"CAST_VOTE", .voteP "V1" "C1", 5⟩], "0", 0, 1, "0"⟩

/-- Ledger after V1 votes for C1. -/
def stV : Blockchain :=
  ⟨1, [gW, bW1, bC2, bV3], [("V1", ⟨"V1", "Alice", true⟩)], [("C1", ⟨"C1", "Rose"⟩)]⟩

/-- A standalone block mined under `H0` from an empty transaction list. -/
def bMk : Block := ⟨0, 0, [], zeros 64, 0, 1, "0"⟩

/-- A spoofed genesis block: every field differs from `gW` except the stored
hash. -/
def gX : Block := ⟨5, 7, [], "junk", 9, 3, "0"⟩

/-! ### Lemmas -/

theorem getLast?_cons_eq_lastBlock (g : Block) (rest : List Block) :
    (g :: rest).getLast? = some (lastBlock g rest) := by
  induction rest generalizing g with
  | nil => rfl
  | cons b rest ih => rw [lastBlock]; exact List.getLast?_cons_cons.trans (ih b)

theorem lastBlock_hash (g : Block) (rest : List Block) :
    (lastBlock g rest).hash = tipHash g.hash rest := by
  induction rest generalizing g with
  | nil => rfl
  | cons b rest ih => rw [lastBlock, tipHash]; exact ih b

theorem goodChain_append (H : String → String) (pfx : String) (l1 l2 : List Block) :
    ∀ ph, goodChain H pfx ph (l1 ++ l2)
      = (goodChain H pfx ph l1 && goodChain H pfx (tipHash ph l1) l2) := by
  induction l1 with
  | nil => intro ph; simp [goodChain, tipHash]
  | cons b rest ih =>
    intro ph
    rw [List.cons_append, goodChain, goodChain, tipHash, ih b.hash, Bool.and_assoc]

theorem validateFrom_of_goodChain (H : String → String) (pfx : String)
    (bs : List Block) :
    ∀ prev i, goodChain H pfx prev.hash bs = true →
      validateFrom H pfx prev bs i = .valid := by
  induction bs with
  | nil => intro prev i _; rfl
  | cons b rest ih =>
    intro prev i hg
    rw [goodChain, Bool.and_eq_true] at hg
    obtain ⟨hb, hrest⟩ := hg
    rw [goodBlock, Bool.and_eq_true, Bool.and_eq_true] at hb
    obtain ⟨⟨h1, h2⟩, h3⟩ := hb
    rw [validateFrom]
    rw [if_neg (by simp [beq_iff_eq] at h1; simp [h1]),
      if_neg (by simp [h2]), if_neg (by simp [beq_iff_eq] at h3; simp [h3])]
    exact ih b (i + 1) hrest

theorem validateFrom_append_of_good (H : String → String) (pfx : String)
    (l1 l2 : List Block) :
    ∀ prev i, goodChain H pfx prev.hash l1 = true →
      validateFrom H pfx prev (l1 ++ l2) i
        = validateFrom H pfx (lastBlock prev l1) l2 (i + l1.length) := by
  induction l1 with
  | nil => intro prev i _; rfl
  | cons b rest ih =>
    intro prev i hg
    rw [goodChain, Bool.and_eq_true] at hg
    obtain ⟨hb, hrest⟩ := hg
    rw [goodBlock, Bool.and_eq_true, Bool.and_eq_true] at hb
    obtain ⟨⟨h1, h2⟩, h3⟩ := hb
    rw [List.cons_append, validateFrom]
    rw [if_neg (by simp [beq_iff_eq] at h1; simp [h1]),
      if_neg (by simp [h2]), if_neg (by simp [beq_iff_eq] at h3; simp [h3])]
    rw [ih b (i + 1) hrest, lastBlock]
    congr 1
    simp [List.length_cons]
    omega

theorem validateFrom_cons_invalid (H : String → String) (pfx : String)
    (prev cur : Block) (l : List Block) (i : Nat)
    (h : cur.hash ≠ Block.calculate_hash H cur
        ∨ strStartsWith cur.hash pfx = false
        ∨ cur.previous_hash ≠ prev.hash) :
    validateFrom H pfx prev (cur :: l) i = .invalid i := by
  rw [validateFrom]
  rcases h with h | h | h
  · rw [if_pos h]
  · by_cases h1 : cur.hash = Block.calculate_hash H cur
    · rw [if_neg (by simp [h1]), if_pos (by simp [h])]
    · rw [if_pos h1]
  · by_cases h1 : cur.hash = Block.calculate_hash H cur
    · rw [if_neg (by simp [h1])]
      by_cases h2 : strStartsWith cur.hash pfx = true
      · rw [if_neg (by simp [h2]), if_pos h]
      · rw [if_pos (by simpa using h2)]
    · rw [if_pos h1]

/-! ### Mining lemmas -/

theorem mineNonce_spec (H : String → String) (idx t : Nat) (txs : List Transaction)
    (ph : String) (d : Nat) :
    ∀ fuel n0 m, mineNonce H idx t txs ph d fuel n0 = some m →
      n0 ≤ m
      ∧ strStartsWith (H (blockString idx t txs ph m d)) (zeros d) = true
      ∧ ∀ k, n0 ≤ k → k < m →
          strStartsWith (H (blockString idx t txs ph k d)) (zeros d) = false := by
  intro fuel
  induction fuel with
  | zero => intro n0 m h; exact absurd h (by rw [mineNonce]; exact Option.noConfusion)
  | succ fuel ih =>
    intro n0 m h
    rw [mineNonce] at h
    split at h
    · cases h
      refine ⟨Nat.le_refl _, by assumption, ?_⟩
      intro k hk1 hk2
      omega
    · obtain ⟨h1, h2, h3⟩ := ih (n0 + 1) m h
      refine ⟨by omega, h2, ?_⟩
      intro k hk1 hk2
      rcases Nat.eq_or_lt_of_le hk1 with heq | hlt
      · subst heq
        simp only [Bool.not_eq_true] at *
        assumption
      · exact h3 k (by omega) hk2

theorem make_fields (H : String → String) (fuel idx t : Nat) (txs : List Transaction)
    (ph : String) (d : Nat) (b : Block)
    (h : Block.make H fuel idx t txs ph d = some b) :
    b.index = idx ∧ b.timestamp = t ∧ b.transactions = txs ∧ b.previous_hash = ph
      ∧ b.difficulty = d
      ∧ b.hash = H (blockString idx t txs ph b.nonce d)
      ∧ mineNonce H idx t txs ph d fuel 0 = some b.nonce := by
  rw [Block.make] at h
  cases hm : mineNonce H idx t txs ph d fuel 0 with
  | none => rw [hm] at h; exact absurd h Option.noConfusion
  | some n =>
    rw [hm] at h
    cases h
    exact ⟨rfl, rfl, rfl, rfl, rfl, rfl, rfl⟩

theorem make_nonce_least (H : String → String) (fuel idx t : Nat)
    (txs : List Transaction) (ph : String) (d : Nat) (b : Block)
    (h : Block.make H fuel idx t txs ph d = some b) :
    strStartsWith (H (blockString idx t txs ph b.nonce d)) (zeros d) = true
      ∧ ∀ k, k < b.nonce →
          strStartsWith (H (blockString idx t txs ph k d)) (zeros d) = false := by
  obtain ⟨_, _, _, _, _, _, h7⟩ := make_fields H fuel idx t txs ph d b h
  obtain ⟨_, h2, h3⟩ := mineNonce_spec H idx t txs ph d fuel 0 b.nonce h7
  exact ⟨h2, fun k hk => h3 k (Nat.zero_le k) hk⟩

theorem make_goodBlock (H : String → String) (fuel idx t : Nat) (txs : List Transaction)
    (ph : String) (d : Nat) (b : Block)
    (h : Block.make H fuel idx t txs ph d = some b) :
    goodBlock H (zeros d) ph b = true := by
  obtain ⟨h1, h2, h3, h4, h5, h6, h7⟩ := make_fields H fuel idx t txs ph d b h
  obtain ⟨_, hst, _⟩ := mineNonce_spec H idx t txs ph d fuel 0 b.nonce h7
  rw [goodBlock, Bool.and_eq_true, Bool.and_eq_true]
  refine ⟨⟨?_, ?_⟩, ?_⟩
  · rw [beq_iff_eq, Block.calculate_hash, h1, h2, h3, h4, h5, h6]
  · rw [h6]; exact hst
  · rw [beq_iff_eq, h4]

theorem replayChain_snoc (l : List Block) (b : Block) :
    replayChain (l ++ [b]) = replayBlock (replayChain l) b := by
  rw [replayChain, replayChain, List.foldl_append, List.foldl_cons, List.foldl_nil]

theorem assocSet_eq_append {α : Type} (l : List (String × α)) (k : String) (v : α)
    (h : assocGet l k = none) : assocSet l k v = l ++ [(k, v)] := by
  induction l with
  | nil => rfl
  | cons p rest ih =>
    obtain ⟨k1, v1⟩ := p
    rw [assocGet] at h
    rw [assocSet]
    by_cases hk : k1 == k
    · rw [if_pos hk] at h; exact absurd h Option.noConfusion
    · rw [if_neg hk] at h
      rw [if_neg hk, List.cons_append, ih h]

theorem add_block_spec (H : String → String) (fuel bT : Nat) (txs : List Transaction)
    (st st' : Blockchain) (h : Blockchain.add_block H fuel bT txs st = some st') :
    ∃ b, st'.difficulty = st.difficulty ∧ st'.voters = st.voters
      ∧ st'.candidates = st.candidates ∧ st'.chain = st.chain ++ [b]
      ∧ b.transactions = txs
      ∧ ∀ g rest, st.chain = g :: rest →
          goodBlock H (zeros st.difficulty) (tipHash g.hash rest) b = true := by
  rw [Blockchain.add_block] at h
  cases hl : st.chain.getLast? with
  | none => rw [hl] at h; exact absurd h Option.noConfusion
  | some last =>
    simp only [hl] at h
    cases hm : Block.make H fuel st.chain.length bT txs last.hash st.difficulty with
    | none => simp only [hm] at h; exact absurd h Option.noConfusion
    | some b =>
      simp only [hm, Option.some.injEq] at h
      cases h.symm
      refine ⟨b, rfl, rfl, rfl, rfl,
        (make_fields _ _ _ _ _ _ _ _ hm).2.2.1, ?_⟩
      intro g rest hch
      have hgb := make_goodBlock _ _ _ _ _ _ _ _ hm
      rw [hch, getLast?_cons_eq_lastBlock] at hl
      cases hl
      rwa [lastBlock_hash] at hgb

theorem chainInv_add_block (H : String → String) (fuel bT : Nat)
    (txs : List Transaction) (st st' : Blockchain) (hInv : ChainInv H st)
    (h : Blockchain.add_block H fuel bT txs st = some st') : ChainInv H st' := by
  obtain ⟨g, rest, hch, hgood⟩ := hInv
  obtain ⟨b, hd, _, _, hc, _, hgb⟩ := add_block_spec H fuel bT txs st st' h
  refine ⟨g, rest ++ [b], by rw [hc, hch, List.cons_append], ?_⟩
  rw [hd, goodChain_append, hgood, Bool.true_and]
  simp [goodChain, hgb g rest hch]

theorem some_pair_inj {r1 r2 : OpResult} {s1 s2 : Blockchain}
    (h : some (r1, s1) = some (r2, s2)) : r1 = r2 ∧ s1 = s2 := by
  injection h with h1
  exact ⟨congrArg Prod.fst h1, congrArg Prod.snd h1⟩

theorem inv_add_voter (H : String → String) (fuel txT bT : Nat) (id nm : String)
    (st : Blockchain) (r : OpResult) (st' : Blockchain) (hInv : Inv H st)
    (h : Blockchain.add_voter H fuel txT bT id nm st = some (r, st')) : Inv H st' := by
  simp only [Blockchain.add_voter] at h
  by_cases he : ((strip id).isEmpty || (strip nm).isEmpty) = true
  · rw [if_pos he] at h
    simp only [Option.some.injEq, Prod.mk.injEq] at h
    exact h.2 ▸ hInv
  · rw [if_neg he] at h
    cases hv : assocGet st.voters (strip id) with
    | some v =>
      rw [hv] at h
      simp only [Option.isSome_some, if_true] at h
      simp only [Option.some.injEq, Prod.mk.injEq] at h
      exact h.2 ▸ hInv
    | none =>
      rw [hv] at h
      simp only [Option.isSome_none, Bool.false_eq_true, if_false] at h
      cases hab : Blockchain.add_block H fuel bT
          [Transaction.add_voter ⟨strip id, strip nm, false⟩ txT]
          { st with voters := st.voters ++ [(strip id, ⟨strip id, strip nm, false⟩)] } with
      | none => simp only [hab] at h; exact absurd h Option.noConfusion
      | some st2 =>
        simp only [hab, Option.some.injEq, Prod.mk.injEq] at h
        obtain ⟨_, hst⟩ := h
        subst hst
        obtain ⟨b, hd, hvs, hcs, hc, htx, _⟩ := add_block_spec _ _ _ _ _ _ hab
        refine ⟨?_, ?_⟩
        · refine chainInv_add_block _ _ _ _ _ _ ?_ hab
          obtain ⟨g, rest, hch, hgood⟩ := hInv.1
          exact ⟨g, rest, hch, hgood⟩
        · rw [TableInv, hc, hvs, hcs]
          show replayChain (st.chain ++ [b]) = _
          rw [replayChain_snoc, hInv.2, replayBlock, htx, List.foldl_cons, List.foldl_nil]
          simp only [replayTx, Transaction.add_voter]
          rw [if_pos (by decide)]
          show (assocSet st.voters (strip id) ⟨strip id, strip nm, false⟩, st.candidates) = _
          rw [assocSet_eq_append _ _ _ hv]

theorem inv_add_candidate (H : String → String) (fuel txT bT : Nat) (id nm : String)
    (st : Blockchain) (r : OpResult) (st' : Blockchain) (hInv : Inv H st)
    (h : Blockchain.add_candidate H fuel txT bT id nm st = some (r, st')) : Inv H st' := by
  simp only [Blockchain.add_candidate] at h
  by_cases he : ((strip id).isEmpty || (strip nm).isEmpty) = true
  · rw [if_pos he] at h
    simp only [Option.some.injEq, Prod.mk.injEq] at h
    exact h.2 ▸ hInv
  · rw [if_neg he] at h
    cases hv : assocGet st.candidates (strip id) with
    | some v =>
      rw [hv] at h
      simp only [Option.isSome_some, if_true] at h
      simp only [Option.some.injEq, Prod.mk.injEq] at h
      exact h.2 ▸ hInv
    | none =>
      rw [hv] at h
      simp only [Option.isSome_none, Bool.false_eq_true, if_false] at h
      cases hab : Blockchain.add_block H fuel bT
          [Transaction.add_candidate ⟨strip id, strip nm⟩ txT]
          { st with candidates := st.candidates ++ [(strip id, ⟨strip id, strip nm⟩)] } with
      | none => simp only [hab] at h; exact absurd h Option.noConfusion
      | some st2 =>
        simp only [hab, Option.some.injEq, Prod.mk.injEq] at h
        obtain ⟨_, hst⟩ := h
        subst hst
        obtain ⟨b, hd, hvs, hcs, hc, htx, _⟩ := add_block_spec _ _ _ _ _ _ hab
        refine ⟨?_, ?_⟩
        · refine chainInv_add_block _ _ _ _ _ _ ?_ hab
          obtain ⟨g, rest, hch, hgood⟩ := hInv.1
          exact ⟨g, rest, hch, hgood⟩
        · rw [TableInv, hc, hvs, hcs]
          show replayChain (st.chain ++ [b]) = _
          rw [replayChain_snoc, hInv.2, replayBlock, htx, List.foldl_cons, List.foldl_nil]
          simp only [replayTx, Transaction.add_candidate]
          rw [if_neg (by decide), if_pos (by decide)]
          show (st.voters, assocSet st.candidates (strip id) ⟨strip id, strip nm⟩) = _
          rw [assocSet_eq_append _ _ _ hv]

theorem inv_cast_vote (H : String → String) (fuel txT bT : Nat) (vid cid : String)
    (st : Blockchain) (r : OpResult) (st' : Blockchain) (hInv : Inv H st)
    (h : Blockchain.cast_vote H fuel txT bT vid cid st = some (r, st')) : Inv H st' := by
  simp only [Blockchain.cast_vote] at h
  cases hv : assocGet st.voters (strip vid) with
  | none =>
    simp only [hv] at h
    exact (some_pair_inj h).2 ▸ hInv
  | some v =>
    simp only [hv] at h
    cases hcand : assocGet st.candidates (strip cid) with
    | none =>
      rw [hcand] at h
      simp only [Option.isNone_none, if_true] at h
      exact (some_pair_inj h).2 ▸ hInv
    | some cnd =>
      rw [hcand] at h
      simp only [Option.isNone_some, Bool.false_eq_true, if_false] at h
      by_cases hvo : v.has_voted = true
      · rw [if_pos hvo] at h
        exact (some_pair_inj h).2 ▸ hInv
      · rw [if_neg hvo] at h
        cases hab : Blockchain.add_block H fuel bT
            [Transaction.cast_vote (strip vid) (strip cid) txT]
            { st with voters := setVoted st.voters (strip vid) } with
        | none => simp only [hab] at h; exact absurd h Option.noConfusion
        | some st2 =>
          simp only [hab, Option.some.injEq, Prod.mk.injEq] at h
          obtain ⟨_, hst⟩ := h
          subst hst
          obtain ⟨b, hd, hvs, hcs, hc, htx, _⟩ := add_block_spec _ _ _ _ _ _ hab
          refine ⟨?_, ?_⟩
          · refine chainInv_add_block _ _ _ _ _ _ ?_ hab
            obtain ⟨g, rest, hch, hgood⟩ := hInv.1
            exact ⟨g, rest, hch, hgood⟩
          · rw [TableInv, hc, hvs, hcs]
            show replayChain (st.chain ++ [b]) = _
            rw [replayChain_snoc, hInv.2, replayBlock, htx, List.foldl_cons, List.foldl_nil]
            simp only [replayTx, Transaction.cast_vote]
            rw [if_neg (by decide), if_neg (by decide), if_pos (by decide)]

theorem inv_applyOp (H : String → String) (st : Blockchain) (op : Op)
    (r : OpResult) (st' : Blockchain) (hInv : Inv H st)
    (h : applyOp H st op = some (r, st')) : Inv H st' := by
  cases op with
  | addVoter id nm fuel txT bT => exact inv_add_voter H fuel txT bT id nm st r st' hInv h
  | addCandidate id nm fuel txT bT => exact inv_add_candidate H fuel txT bT id nm st r st' hInv h
  | castVote vid cid fuel txT bT => exact inv_cast_vote H fuel txT bT vid cid st r st' hInv h

theorem inv_runOps (H : String → String) (ops : List Op) :
    ∀ st st', Inv H st → runOps H st ops = some st' → Inv H st' := by
  induction ops with
  | nil => intro st st' hInv h; rw [runOps] at h; cases h; exact hInv
  | cons op ops ih =>
    intro st st' hInv h
    rw [runOps] at h
    cases ha : applyOp H st op with
    | none => rw [ha] at h; exact absurd h Option.noConfusion
    | some p =>
      obtain ⟨r, st1⟩ := p
      simp only [ha] at h
      exact ih st1 st' (inv_applyOp H st op r st1 hInv ha) h

theorem inv_init (H : String → String) (fuel gTxT gBlockT d : Nat) (st : Blockchain)
    (h : Blockchain.init H fuel gTxT gBlockT d = some st) : Inv H st := by
  rw [Blockchain.init] at h
  cases hm : Block.make H fuel 0 gBlockT
      [⟨"GENESIS", .genesisP "Voting chain initiated", gTxT⟩] (zeros 64) d with
  | none => simp only [hm] at h; exact absurd h Option.noConfusion
  | some g =>
    simp only [hm, Option.some.injEq] at h
    subst h
    refine ⟨⟨g, [], rfl, rfl⟩, ?_⟩
    rw [TableInv]
    show replayBlock ([], []) g = _
    rw [replayBlock, (make_fields _ _ _ _ _ _ _ _ hm).2.2.1, List.foldl_cons, List.foldl_nil]
    simp only [replayTx]
    rw [if_neg (by decide), if_neg (by decide), if_neg (by decide)]

theorem make_eq (H : String → String) (fuel idx t : Nat) (txs : List Transaction)
    (ph : String) (d : Nat) (b : Block)
    (h : Block.make H fuel idx t txs ph d = some b) :
    ∃ n, mineNonce H idx t txs ph d fuel 0 = some n
      ∧ b = ⟨idx, t, txs, ph, n, d, H (blockString idx t txs ph n d)⟩ := by
  rw [Block.make] at h
  cases hm : mineNonce H idx t txs ph d fuel 0 with
  | none => rw [hm] at h; exact absurd h Option.noConfusion
  | some n =>
    rw [hm] at h
    cases h
    exact ⟨n, rfl, rfl⟩

theorem assocGet_append_self {α : Type} (l : List (String × α)) (k : String) (v : α)
    (h : assocGet l k = none) : assocGet (l ++ [(k, v)]) k = some v := by
  induction l with
  | nil => rw [List.nil_append, assocGet, if_pos (beq_self_eq_true k)]
  | cons p rest ih =>
    obtain ⟨k1, v1⟩ := p
    rw [assocGet] at h
    by_cases hk : (k1 == k) = true
    · rw [if_pos hk] at h; exact absurd h Option.noConfusion
    · rw [if_neg hk] at h
      rw [List.cons_append, assocGet, if_neg hk]
      exact ih h

theorem assocGet_setVoted_self (l : List (String × Voter)) (k : String) (v : Voter)
    (h : assocGet l k = some v) :
    assocGet (setVoted l k) k = some { v with has_voted := true } := by
  induction l with
  | nil => exact absurd h Option.noConfusion
  | cons p rest ih =>
    obtain ⟨k1, v1⟩ := p
    rw [assocGet] at h
    by_cases hk : (k1 == k) = true
    · rw [if_pos hk] at h
      cases h
      rw [setVoted, if_pos hk, assocGet, if_pos hk]
    · rw [if_neg hk] at h
      rw [setVoted, if_neg hk, assocGet, if_neg hk]
      exact ih h

/-! ### Full characterization of each mutating operation -/

theorem add_voter_empty (H : String → String) (fuel txT bT : Nat) (id nm : String)
    (st : Blockchain) (he : ((strip id).isEmpty || (strip nm).isEmpty) = true) :
    Blockchain.add_voter H fuel txT bT id nm st = some (.emptyField, st) := by
  simp only [Blockchain.add_voter]
  rw [if_pos he]

theorem add_voter_dup (H : String → String) (fuel txT bT : Nat) (id nm : String)
    (st : Blockchain) (v : Voter)
    (he : ((strip id).isEmpty || (strip nm).isEmpty) = false)
    (hv : assocGet st.voters (strip id) = some v) :
    Blockchain.add_voter H fuel txT bT id nm st = some (.duplicateVoterId, st) := by
  simp only [Blockchain.add_voter]
  rw [if_neg (by rw [he]; exact Bool.false_ne_true), hv,
    if_pos (show (Option.some v).isSome = true from rfl)]

theorem add_voter_success (H : String → String) (fuel txT bT : Nat) (id nm : String)
    (st : Blockchain) (r : OpResult) (st' : Blockchain)
    (he : ((strip id).isEmpty || (strip nm).isEmpty) = false)
    (hv : assocGet st.voters (strip id) = none)
    (h : Blockchain.add_voter H fuel txT bT id nm st = some (r, st')) :
    r = .success
      ∧ st'.voters = st.voters ++ [(strip id, ⟨strip id, strip nm, false⟩)]
      ∧ st'.candidates = st.candidates
      ∧ st'.difficulty = st.difficulty
      ∧ ∃ b, st'.chain = st.chain ++ [b]
          ∧ b.transactions = [Transaction.add_voter ⟨strip id, strip nm, false⟩ txT] := by
  simp only [Blockchain.add_voter] at h
  rw [if_neg (by rw [he]; exact Bool.false_ne_true), hv] at h
  simp only [Option.isSome_none, Bool.false_eq_true, if_false] at h
  cases hab : Blockchain.add_block H fuel bT
      [Transaction.add_voter ⟨strip id, strip nm, false⟩ txT]
      { st with voters := st.voters ++ [(strip id, ⟨strip id, strip nm, false⟩)] } with
  | none => rw [hab] at h; exact absurd h Option.noConfusion
  | some st2 =>
    rw [hab] at h
    obtain ⟨hr, hst⟩ := some_pair_inj h
    subst hst
    obtain ⟨b, hd, hvs, hcs, hc, htx, _⟩ := add_block_spec _ _ _ _ _ _ hab
    exact ⟨hr.symm, hvs, hcs, hd, b, hc, htx⟩

theorem add_candidate_empty (H : String → String) (fuel txT bT : Nat) (id nm : String)
    (st : Blockchain) (he : ((strip id).isEmpty || (strip nm).isEmpty) = true) :
    Blockchain.add_candidate H fuel txT bT id nm st = some (.emptyField, st) := by
  simp only [Blockchain.add_candidate]
  rw [if_pos he]

theorem add_candidate_dup (H : String → String) (fuel txT bT : Nat) (id nm : String)
    (st : Blockchain) (c : Candidate)
    (he : ((strip id).isEmpty || (strip nm).isEmpty) = false)
    (hv : assocGet st.candidates (strip id) = some c) :
    Blockchain.add_candidate H fuel txT bT id nm st = some (.duplicateCandidateId, st) := by
  simp only [Blockchain.add_candidate]
  rw [if_neg (by rw [he]; exact Bool.false_ne_true), hv,
    if_pos (show (Option.some c).isSome = true from rfl)]

theorem add_candidate_success (H : String → String) (fuel txT bT : Nat) (id nm : String)
    (st : Blockchain) (r : OpResult) (st' : Blockchain)
    (he : ((strip id).isEmpty || (strip nm).isEmpty) = false)
    (hv : assocGet st.candidates (strip id) = none)
    (h : Blockchain.add_candidate H fuel txT bT id nm st = some (r, st')) :
    r = .success
      ∧ st'.candidates = st.candidates ++ [(strip id, ⟨strip id, strip nm⟩)]
      ∧ st'.voters = st.voters
      ∧ st'.difficulty = st.difficulty
      ∧ ∃ b, st'.chain = st.chain ++ [b]
          ∧ b.transactions = [Transaction.add_candidate ⟨strip id, strip nm⟩ txT] := by
  simp only [Blockchain.add_candidate] at h
  rw [if_neg (by rw [he]; exact Bool.false_ne_true), hv] at h
  simp only [Option.isSome_none, Bool.false_eq_true, if_false] at h
  cases hab : Blockchain.add_block H fuel bT
      [Transaction.add_candidate ⟨strip id, strip nm⟩ txT]
      { st with candidates := st.candidates ++ [(strip id, ⟨strip id, strip nm⟩)] } with
  | none => rw [hab] at h; exact absurd h Option.noConfusion
  | some st2 =>
    rw [hab] at h
    obtain ⟨hr, hst⟩ := some_pair_inj h
    subst hst
    obtain ⟨b, hd, hvs, hcs, hc, htx, _⟩ := add_block_spec _ _ _ _ _ _ hab
    exact ⟨hr.symm, hcs, hvs, hd, b, hc, htx⟩

theorem cast_vote_no_voter (H : String → String) (fuel txT bT : Nat) (vid cid : String)
    (st : Blockchain) (hv : assocGet st.voters (strip vid) = none) :
    Blockchain.cast_vote H fuel txT bT vid cid st = some (.unknownVoter, st) := by
  simp only [Blockchain.cast_vote, hv]

theorem cast_vote_no_candidate (H : String → String) (fuel txT bT : Nat)
    (vid cid : String) (st : Blockchain) (v : Voter)
    (hv : assocGet st.voters (strip vid) = some v)
    (hc : assocGet st.candidates (strip cid) = none) :
    Blockchain.cast_vote H fuel txT bT vid cid st = some (.unknownCandidate, st) := by
  simp only [Blockchain.cast_vote, hv, hc]
  rw [if_pos (show (Option.none : Option Candidate).isNone = true from rfl)]

theorem cast_vote_already (H : String → String) (fuel txT bT : Nat)
    (vid cid : String) (st : Blockchain) (v : Voter) (c : Candidate)
    (hv : assocGet st.voters (strip vid) = some v)
    (hc : assocGet st.candidates (strip cid) = some c)
    (hvo : v.has_voted = true) :
    Blockchain.cast_vote H fuel txT bT vid cid st = some (.alreadyVoted, st) := by
  simp only [Blockchain.cast_vote, hv, hc]
  rw [if_neg (show ¬(Option.some c).isNone = true from fun hcontra => Bool.false_ne_true hcontra),
    if_pos hvo]

theorem cast_vote_success (H : String → String) (fuel txT bT : Nat)
    (vid cid : String) (st : Blockchain) (v : Voter) (c : Candidate)
    (r : OpResult) (st' : Blockchain)
    (hv : assocGet st.voters (strip vid) = some v)
    (hc : assocGet st.candidates (strip cid) = some c)
    (hvo : v.has_voted = false)
    (h : Blockchain.cast_vote H fuel txT bT vid cid st = some (r, st')) :
    r = .success
      ∧ st'.voters = setVoted st.voters (strip vid)
      ∧ st'.candidates = st.candidates
      ∧ st'.difficulty = st.difficulty
      ∧ ∃ b, st'.chain = st.chain ++ [b]
          ∧ b.transactions = [Transaction.cast_vote (strip vid) (strip cid) txT] := by
  simp only [Blockchain.cast_vote, hv, hc] at h
  rw [if_neg (show ¬(Option.some c).isNone = true from fun hcontra => Bool.false_ne_true hcontra),
    if_neg (by rw [hvo]; exact Bool.false_ne_true)] at h
  cases hab : Blockchain.add_block H fuel bT
      [Transaction.cast_vote (strip vid) (strip cid) txT]
      { st with voters := setVoted st.voters (strip vid) } with
  | none => rw [hab] at h; exact absurd h Option.noConfusion
  | some st2 =>
    rw [hab] at h
    obtain ⟨hr, hst⟩ := some_pair_inj h
    subst hst
    obtain ⟨b, hd, hvs, hcs, hc2, htx, _⟩ := add_block_spec _ _ _ _ _ _ hab
    exact ⟨hr.symm, hvs, hcs, hd, b, hc2, htx⟩

theorem add_voter_cases (H : String → String) (fuel txT bT : Nat) (id nm : String)
    (st : Blockchain) (r : OpResult) (st' : Blockchain)
    (h : Blockchain.add_voter H fuel txT bT id nm st = some (r, st')) :
    (r = .emptyField ∧ st' = st
        ∧ ((strip id).isEmpty || (strip nm).isEmpty) = true)
    ∨ (r = .duplicateVoterId ∧ st' = st
        ∧ ((strip id).isEmpty || (strip nm).isEmpty) = false
        ∧ ∃ v, assocGet st.voters (strip id) = some v)
    ∨ (r = .success ∧ ((strip id).isEmpty || (strip nm).isEmpty) = false
        ∧ assocGet st.voters (strip id) = none
        ∧ st'.voters = st.voters ++ [(strip id, ⟨strip id, strip nm, false⟩)]
        ∧ st'.candidates = st.candidates ∧ st'.difficulty = st.difficulty
        ∧ ∃ b, st'.chain = st.chain ++ [b]
            ∧ b.transactions = [Transaction.add_voter ⟨strip id, strip nm, false⟩ txT]) := by
  by_cases he : ((strip id).isEmpty || (strip nm).isEmpty) = true
  · obtain ⟨hr, hst⟩ := some_pair_inj ((add_voter_empty H fuel txT bT id nm st he).symm.trans h)
    exact Or.inl ⟨hr.symm, hst.symm, he⟩
  · rw [Bool.not_eq_true] at he
    cases hv : assocGet st.voters (strip id) with
    | some v =>
      obtain ⟨hr, hst⟩ :=
        some_pair_inj ((add_voter_dup H fuel txT bT id nm st v he hv).symm.trans h)
      exact Or.inr (Or.inl ⟨hr.symm, hst.symm, he, v, rfl⟩)
    | none =>
      obtain ⟨hr, hvs, hcs, hd, b, hc, htx⟩ :=
        add_voter_success H fuel txT bT id nm st r st' he hv h
      exact Or.inr (Or.inr ⟨hr, he, rfl, hvs, hcs, hd, b, hc, htx⟩)

theorem add_candidate_cases (H : String → String) (fuel txT bT : Nat) (id nm : String)
    (st : Blockchain) (r : OpResult) (st' : Blockchain)
    (h : Blockchain.add_candidate H fuel txT bT id nm st = some (r, st')) :
    (r = .emptyField ∧ st' = st
        ∧ ((strip id).isEmpty || (strip nm).isEmpty) = true)
    ∨ (r = .duplicateCandidateId ∧ st' = st
        ∧ ((strip id).isEmpty || (strip nm).isEmpty) = false
        ∧ ∃ c, assocGet st.candidates (strip id) = some c)
    ∨ (r = .success ∧ ((strip id).isEmpty || (strip nm).isEmpty) = false
        ∧ assocGet st.candidates (strip id) = none
        ∧ st'.candidates = st.candidates ++ [(strip id, ⟨strip id, strip nm⟩)]
        ∧ st'.voters = st.voters ∧ st'.difficulty = st.difficulty
        ∧ ∃ b, st'.chain = st.chain ++ [b]
            ∧ b.transactions = [Transaction.add_candidate ⟨strip id, strip nm⟩ txT]) := by
  by_cases he : ((strip id).isEmpty || (strip nm).isEmpty) = true
  · obtain ⟨hr, hst⟩ :=
      some_pair_inj ((add_candidate_empty H fuel txT bT id nm st he).symm.trans h)
    exact Or.inl ⟨hr.symm, hst.symm, he⟩
  · rw [Bool.not_eq_true] at he
    cases hv : assocGet st.candidates (strip id) with
    | some cv =>
      obtain ⟨hr, hst⟩ :=
        some_pair_inj ((add_candidate_dup H fuel txT bT id nm st cv he hv).symm.trans h)
      exact Or.inr (Or.inl ⟨hr.symm, hst.symm, he, cv, rfl⟩)
    | none =>
      obtain ⟨hr, hcs, hvs, hd, b, hc, htx⟩ :=
        add_candidate_success H fuel txT bT id nm st r st' he hv h
      exact Or.inr (Or.inr ⟨hr, he, rfl, hcs, hvs, hd, b, hc, htx⟩)

theorem cast_vote_cases (H : String → String) (fuel txT bT : Nat) (vid cid : String)
    (st : Blockchain) (r : OpResult) (st' : Blockchain)
    (h : Blockchain.cast_vote H fuel txT bT vid cid st = some (r, st')) :
    (r = .unknownVoter ∧ st' = st ∧ assocGet st.voters (strip vid) = none)
    ∨ (r = .unknownCandidate ∧ st' = st
        ∧ (∃ v, assocGet st.voters (strip vid) = some v)
        ∧ assocGet st.candidates (strip cid) = none)
    ∨ (r = .alreadyVoted ∧ st' = st
        ∧ (∃ v, assocGet st.voters (strip vid) = some v ∧ v.has_voted = true)
        ∧ ∃ c, assocGet st.candidates (strip cid) = some c)
    ∨ (r = .success
        ∧ (∃ v, assocGet st.voters (strip vid) = some v ∧ v.has_voted = false)
        ∧ (∃ c, assocGet st.candidates (strip cid) = some c)
        ∧ st'.voters = setVoted st.voters (strip vid)
        ∧ st'.candidates = st.candidates ∧ st'.difficulty = st.difficulty
        ∧ ∃ b, st'.chain = st.chain ++ [b]
            ∧ b.transactions = [Transaction.cast_vote (strip vid) (strip cid) txT]) := by
  cases hv : assocGet st.voters (strip vid) with
  | none =>
    obtain ⟨hr, hst⟩ :=
      some_pair_inj ((cast_vote_no_voter H fuel txT bT vid cid st hv).symm.trans h)
    exact Or.inl ⟨hr.symm, hst.symm, rfl⟩
  | some v =>
    cases hc : assocGet st.candidates (strip cid) with
    | none =>
      obtain ⟨hr, hst⟩ :=
        some_pair_inj ((cast_vote_no_candidate H fuel txT bT vid cid st v hv hc).symm.trans h)
      exact Or.inr (Or.inl ⟨hr.symm, hst.symm, ⟨v, rfl⟩, rfl⟩)
    | some cc =>
      by_cases hvo : v.has_voted = true
      · obtain ⟨hr, hst⟩ :=
          some_pair_inj ((cast_vote_already H fuel txT bT vid cid st v cc hv hc hvo).symm.trans h)
        exact Or.inr (Or.inr (Or.inl ⟨hr.symm, hst.symm, ⟨v, rfl, hvo⟩, cc, rfl⟩))
      · rw [Bool.not_eq_true] at hvo
        obtain ⟨hr, hvs, hcs, hd, b, hc2, htx⟩ :=
          cast_vote_success H fuel txT bT vid cid st v cc r st' hv hc hvo h
        exact Or.inr (Or.inr (Or.inr ⟨hr, ⟨v, rfl, hvo⟩, ⟨cc, rfl⟩, hvs, hcs, hd, b, hc2, htx⟩))

theorem validateFrom_hash_congr (H : String → String) (pfx : String)
    (l : List Block) (p1 p2 : Block) (i : Nat) (hh : p1.hash = p2.hash) :
    validateFrom H pfx p1 l i = validateFrom H pfx p2 l i := by
  cases l with
  | nil => rfl
  | cons b rest => rw [validateFrom, validateFrom, hh]

/-! ### Claims -/

/-- C1: for every Block produced by mining (via Block construction), the stored
hash equals the digest of the canonical serialization of (index, timestamp,
transactions, previous_hash, nonce, difficulty), and that hash starts with
`difficulty` consecutive zero characters. -/
theorem c1_mined_block_hash (H : String → String) (fuel idx t : Nat)
    (txs : List Transaction) (ph : String) (d : Nat) (b : Block)
    (h : Block.make H fuel idx t txs ph d = some b) :
    b.hash = Block.calculate_hash H b
      ∧ strStartsWith b.hash (zeros b.difficulty) = true := by
  have hg := make_goodBlock H fuel idx t txs ph d b h
  have h5 := (make_fields H fuel idx t txs ph d b h).2.2.2.2.1
  rw [goodBlock, Bool.and_eq_true, Bool.and_eq_true, beq_iff_eq] at hg
  exact ⟨hg.1.1, by rw [h5]; exact hg.1.2⟩

theorem c1_mined_block_hash_witness :
    bMk.hash = Block.calculate_hash H0 bMk
      ∧ strStartsWith bMk.hash (zeros bMk.difficulty) = true :=
  c1_mined_block_hash H0 1 0 0 [] (zeros 64) 1 bMk (by decide)

/-- C8: mining is a deterministic linear search: the timestamp is the one
sampled at block construction and is used unchanged at every attempt, the
block's fields equal the construction inputs, the returned nonce is the least
one meeting the difficulty target, and the result is fully determined by
(index, transactions, previous_hash, difficulty, timestamp) — in particular it
does not depend on the fuel bound. -/
theorem c8_mining_deterministic (H : String → String) (fuel idx t : Nat)
    (txs : List Transaction) (ph : String) (d : Nat) (b : Block)
    (h : Block.make H fuel idx t txs ph d = some b) :
    b.index = idx ∧ b.timestamp = t ∧ b.transactions = txs ∧ b.previous_hash = ph
      ∧ b.difficulty = d
      ∧ strStartsWith (H (blockString idx t txs ph b.nonce d)) (zeros d) = true
      ∧ (∀ k, k < b.nonce →
          strStartsWith (H (blockString idx t txs ph k d)) (zeros d) = false)
      ∧ ∀ fuel' b', Block.make H fuel' idx t txs ph d = some b' → b' = b := by
  obtain ⟨n, hm, hb⟩ := make_eq H fuel idx t txs ph d b h
  subst hb
  obtain ⟨-, hs, hmin⟩ := mineNonce_spec H idx t txs ph d fuel 0 n hm
  refine ⟨rfl, rfl, rfl, rfl, rfl, hs, fun k hk => hmin k (Nat.zero_le k) hk, ?_⟩
  intro fuel' b' h'
  obtain ⟨n', hm', hb'⟩ := make_eq H fuel' idx t txs ph d b' h'
  obtain ⟨-, hs', hmin'⟩ := mineNonce_spec H idx t txs ph d fuel' 0 n' hm'
  have hnn : n' = n := by
    rcases Nat.lt_trichotomy n' n with hlt | heq | hgt
    · exact absurd hs' (by rw [hmin n' (Nat.zero_le n') hlt]; exact Bool.false_ne_true)
    · exact heq
    · exact absurd hs (by rw [hmin' n (Nat.zero_le n) hgt]; exact Bool.false_ne_true)
  rw [hb', hnn]

theorem c8_mining_deterministic_witness :
    bMk.index = 0 ∧ bMk.timestamp = 0 ∧ bMk.transactions = []
      ∧ bMk.previous_hash = zeros 64 ∧ bMk.difficulty = 1
      ∧ strStartsWith (H0 (blockString 0 0 [] (zeros 64) bMk.nonce 1)) (zeros 1) = true
      ∧ (∀ k, k < bMk.nonce →
          strStartsWith (H0 (blockString 0 0 [] (zeros 64) k 1)) (zeros 1) = false)
      ∧ ∀ fuel' b', Block.make H0 fuel' 0 0 [] (zeros 64) 1 = some b' → b' = bMk :=
  c8_mining_deterministic H0 1 0 0 [] (zeros 64) 1 bMk (by decide)

/-- C2: every ledger state reachable from a fresh ledger by any sequence of
addVoter, addCandidate and castVote calls has a chain on which validate_chain
returns valid. -/
theorem c2_reachable_chain_valid (H : String → String) (fuel gT gB d : Nat)
    (st0 st : Blockchain) (ops : List Op)
    (hinit : Blockchain.init H fuel gT gB d = some st0)
    (hrun : runOps H st0 ops = some st) :
    Blockchain.validate_chain H st = .valid := by
  obtain ⟨⟨g, rest, hch, hgood⟩, -⟩ :=
    inv_runOps H ops st0 st (inv_init H fuel gT gB d st0 hinit) hrun
  simp only [Blockchain.validate_chain, hch]
  exact validateFrom_of_goodChain H (zeros st.difficulty) rest g 1 hgood

theorem c2_reachable_chain_valid_witness :
    Blockchain.validate_chain H0 stW = .valid :=
  c2_reachable_chain_valid H0 1 0 0 1 stG stW
    [.addVoter "V1" "Alice" 1 1 2] (by decide) (by decide)

/-- C7: for every reachable ledger state, replaying the chain's ADD_VOTER,
ADD_CANDIDATE and CAST_VOTE transactions in chain order from genesis
reproduces the incrementally maintained voters and candidates tables,
including each voter's has_voted flag. -/
theorem c7_replay_reproduces_tables (H : String → String) (fuel gT gB d : Nat)
    (st0 st : Blockchain) (ops : List Op)
    (hinit : Blockchain.init H fuel gT gB d = some st0)
    (hrun : runOps H st0 ops = some st) :
    replayChain st.chain = (st.voters, st.candidates) :=
  (inv_runOps H ops st0 st (inv_init H fuel gT gB d st0 hinit) hrun).2

theorem c7_replay_reproduces_tables_witness :
    replayChain stV.chain = (stV.voters, stV.candidates) :=
  c7_replay_reproduces_tables H0 1 0 0 1 stG stV
    [.addVoter "V1" "Alice" 1 1 2, .addCandidate "C1" "Rose" 1 3 4,
     .castVote "V1" "C1" 1 5 6] (by decide) (by decide)

/-- C9: validate_chain never verifies the genesis block itself: on a chain of
length 1 it returns valid whatever the genesis block contains, and replacing
the genesis block by any block with the same stored hash (all other fields
arbitrarily corrupted) leaves the validation outcome unchanged. -/
theorem c9_genesis_never_checked (H : String → String) :
    (∀ d g vs cs, Blockchain.validate_chain H ⟨d, [g], vs, cs⟩ = .valid)
      ∧ ∀ st g rest g', st.chain = g :: rest → g'.hash = g.hash →
          Blockchain.validate_chain H { st with chain := g' :: rest }
            = Blockchain.validate_chain H st := by
  constructor
  · intro d g vs cs; rfl
  · intro st g rest g' hch hh
    simp only [Blockchain.validate_chain, hch]
    exact validateFrom_hash_congr H (zeros st.difficulty) rest g' g 1 hh

theorem c9_genesis_never_checked_witness :
    (Blockchain.validate_chain H0 ⟨1, [gX], [], []⟩ = .valid)
      ∧ Blockchain.validate_chain H0 { stG with chain := [gX] }
          = Blockchain.validate_chain H0 stG :=
  ⟨(c9_genesis_never_checked H0).1 1 gX [] [],
   (c9_genesis_never_checked H0).2 stG gW [] gX rfl rfl⟩

/-- C6: add_voter trims both inputs; it fails with EmptyField when either is
empty after trimming, fails with DuplicateVoterId when the trimmed id is
already a key of the voters table, and otherwise inserts the voter built from
the trimmed id and name with has_voted = false, appends exactly one block
containing exactly one ADD_VOTER transaction, and returns success; the stored
values are the trimmed strings. -/
theorem c6_add_voter_behavior (H : String → String) (fuel txT bT : Nat)
    (id nm : String) (st : Blockchain) :
    (((strip id).isEmpty || (strip nm).isEmpty) = true →
        Blockchain.add_voter H fuel txT bT id nm st = some (.emptyField, st))
    ∧ (∀ v, ((strip id).isEmpty || (strip nm).isEmpty) = false →
        assocGet st.voters (strip id) = some v →
        Blockchain.add_voter H fuel txT bT id nm st = some (.duplicateVoterId, st))
    ∧ (∀ r st', ((strip id).isEmpty || (strip nm).isEmpty) = false →
        assocGet st.voters (strip id) = none →
        Blockchain.add_voter H fuel txT bT id nm st = some (r, st') →
        r = .success
        ∧ st'.voters = st.voters ++ [(strip id, ⟨strip id, strip nm, false⟩)]
        ∧ assocGet st'.voters (strip id) = some ⟨strip id, strip nm, false⟩
        ∧ st'.candidates = st.candidates
        ∧ ∃ b, st'.chain = st.chain ++ [b]
            ∧ b.transactions = [Transaction.add_voter ⟨strip id, strip nm, false⟩ txT]) := by
  refine ⟨add_voter_empty H fuel txT bT id nm st,
    fun v he hv => add_voter_dup H fuel txT bT id nm st v he hv, ?_⟩
  intro r st' he hv h
  obtain ⟨hr, hvs, hcs, -, b, hc, htx⟩ :=
    add_voter_success H fuel txT bT id nm st r st' he hv h
  exact ⟨hr, hvs, by rw [hvs]; exact assocGet_append_self _ _ _ hv, hcs, b, hc, htx⟩

theorem c6_add_voter_behavior_witness :
    (OpResult.success : OpResult) = .success
      ∧ stW.voters = stG.voters ++ [(strip " V1 ", ⟨strip " V1 ", strip " Alice ", false⟩)]
      ∧ assocGet stW.voters (strip " V1 ") = some ⟨strip " V1 ", strip " Alice ", false⟩
      ∧ stW.candidates = stG.candidates
      ∧ ∃ b, stW.chain = stG.chain ++ [b]
          ∧ b.transactions = [Transaction.add_voter ⟨strip " V1 ", strip " Alice ", false⟩ 1] :=
  (c6_add_voter_behavior H0 1 1 2 " V1 " " Alice " stG).2.2 .success stW
    (by decide) (by decide) (by decide)

/-- C4: cast_vote, after trimming both inputs, fails with UnknownVoter when the
trimmed voter id is absent from the voters table (before any other check),
fails with UnknownCandidate when the trimmed candidate id is absent, fails
with AlreadyVoted when the voter's has_voted flag is true, and otherwise sets
has_voted to true, appends exactly one block containing exactly one CAST_VOTE
transaction, and returns success. -/
theorem c4_cast_vote_behavior (H : String → String) (fuel txT bT : Nat)
    (vid cid : String) (st : Blockchain) :
    (assocGet st.voters (strip vid) = none →
        Blockchain.cast_vote H fuel txT bT vid cid st = some (.unknownVoter, st))
    ∧ (∀ v, assocGet st.voters (strip vid) = some v →
        assocGet st.candidates (strip cid) = none →
        Blockchain.cast_vote H fuel txT bT vid cid st = some (.unknownCandidate, st))
    ∧ (∀ v c, assocGet st.voters (strip vid) = some v →
        assocGet st.candidates (strip cid) = some c → v.has_voted = true →
        Blockchain.cast_vote H fuel txT bT vid cid st = some (.alreadyVoted, st))
    ∧ (∀ v c r st', assocGet st.voters (strip vid) = some v →
        assocGet st.candidates (strip cid) = some c → v.has_voted = false →
        Blockchain.cast_vote H fuel txT bT vid cid st = some (r, st') →
        r = .success
        ∧ st'.voters = setVoted st.voters (strip vid)
        ∧ assocGet st'.voters (strip vid) = some { v with has_voted := true }
        ∧ st'.candidates = st.candidates
        ∧ ∃ b, st'.chain = st.chain ++ [b]
            ∧ b.transactions = [Transaction.cast_vote (strip vid) (strip cid) txT]) := by
  refine ⟨cast_vote_no_voter H fuel txT bT vid cid st,
    fun v hv hc => cast_vote_no_candidate H fuel txT bT vid cid st v hv hc,
    fun v c hv hc hvo => cast_vote_already H fuel txT bT vid cid st v c hv hc hvo, ?_⟩
  intro v c r st' hv hc hvo h
  obtain ⟨hr, hvs, hcs, -, b, hc2, htx⟩ :=
    cast_vote_success H fuel txT bT vid cid st v c r st' hv hc hvo h
  exact ⟨hr, hvs, by rw [hvs]; exact assocGet_setVoted_self _ _ _ hv, hcs, b, hc2, htx⟩

theorem c4_cast_vote_behavior_witness :
    (OpResult.success : OpResult) = .success
      ∧ stV.voters = setVoted stWC.voters (strip "V1")
      ∧ assocGet stV.voters (strip "V1") = some ⟨"V1", "Alice", true⟩
      ∧ stV.candidates = stWC.candidates
      ∧ ∃ b, stV.chain = stWC.chain ++ [b]
          ∧ b.transactions = [Transaction.cast_vote (strip "V1") (strip "C1") 5] :=
  (c4_cast_vote_behavior H0 1 5 6 "V1" "C1" stWC).2.2.2
    ⟨"V1", "Alice", false⟩ ⟨"C1", "Rose"⟩ .success stV
    (by decide) (by decide) rfl (by decide)

/-- C5: every mutating operation is atomic: on failure the chain and both
lookup tables are exactly as before the call; on success both the table
update and the single-block append have happened. -/
theorem c5_atomic_mutations (H : String → String) (st : Blockchain) :
    (∀ fuel txT bT id nm r st',
        Blockchain.add_voter H fuel txT bT id nm st = some (r, st') →
        (r ≠ .success → st' = st)
        ∧ (r = .success → st'.chain.length = st.chain.length + 1
            ∧ st'.voters = st.voters ++ [(strip id, ⟨strip id, strip nm, false⟩)]
            ∧ st'.candidates = st.candidates))
    ∧ (∀ fuel txT bT id nm r st',
        Blockchain.add_candidate H fuel txT bT id nm st = some (r, st') →
        (r ≠ .success → st' = st)
        ∧ (r = .success → st'.chain.length = st.chain.length + 1
            ∧ st'.candidates = st.candidates ++ [(strip id, ⟨strip id, strip nm⟩)]
            ∧ st'.voters = st.voters))
    ∧ (∀ fuel txT bT vid cid r st',
        Blockchain.cast_vote H fuel txT bT vid cid st = some (r, st') →
        (r ≠ .success → st' = st)
        ∧ (r = .success → st'.chain.length = st.chain.length + 1
            ∧ st'.voters = setVoted st.voters (strip vid)
            ∧ st'.candidates = st.candidates)) := by
  refine ⟨?_, ?_, ?_⟩
  · intro fuel txT bT id nm r st' h
    rcases add_voter_cases H fuel txT bT id nm st r st' h with
      ⟨hr, hst, -⟩ | ⟨hr, hst, -⟩ | ⟨hr, -, -, hvs, hcs, -, b, hc, -⟩
    · exact ⟨fun _ => hst, fun hs => absurd (hr.symm.trans hs) (by decide)⟩
    · exact ⟨fun _ => hst, fun hs => absurd (hr.symm.trans hs) (by decide)⟩
    · exact ⟨fun hne => absurd hr hne, fun _ =>
        ⟨by rw [hc, List.length_append, List.length_cons, List.length_nil], hvs, hcs⟩⟩
  · intro fuel txT bT id nm r st' h
    rcases add_candidate_cases H fuel txT bT id nm st r st' h with
      ⟨hr, hst, -⟩ | ⟨hr, hst, -⟩ | ⟨hr, -, -, hcs, hvs, -, b, hc, -⟩
    · exact ⟨fun _ => hst, fun hs => absurd (hr.symm.trans hs) (by decide)⟩
    · exact ⟨fun _ => hst, fun hs => absurd (hr.symm.trans hs) (by decide)⟩
    · exact ⟨fun hne => absurd hr hne, fun _ =>
        ⟨by rw [hc, List.length_append, List.length_cons, List.length_nil], hcs, hvs⟩⟩
  · intro fuel txT bT vid cid r st' h
    rcases cast_vote_cases H fuel txT bT vid cid st r st' h with
      ⟨hr, hst, -⟩ | ⟨hr, hst, -, -⟩ | ⟨hr, hst, -, -⟩ | ⟨hr, -, -, hvs, hcs, -, b, hc, -⟩
    · exact ⟨fun _ => hst, fun hs => absurd (hr.symm.trans hs) (by decide)⟩
    · exact ⟨fun _ => hst, fun hs => absurd (hr.symm.trans hs) (by decide)⟩
    · exact ⟨fun _ => hst, fun hs => absurd (hr.symm.trans hs) (by decide)⟩
    · exact ⟨fun hne => absurd hr hne, fun _ =>
        ⟨by rw [hc, List.length_append, List.length_cons, List.length_nil], hvs, hcs⟩⟩

theorem c5_atomic_mutations_witness :
    stG = stG
      ∧ (stW.chain.length = stG.chain.length + 1
          ∧ stW.voters = stG.voters ++ [(strip " V1 ", ⟨strip " V1 ", strip " Alice ", false⟩)]
          ∧ stW.candidates = stG.candidates) :=
  ⟨((c5_atomic_mutations H0 stG).1 1 1 2 "" "X" .emptyField stG (by decide)).1 (by decide),
   ((c5_atomic_mutations H0 stG).1 1 1 2 " V1 " " Alice " .success stW (by decide)).2 rfl⟩

/-- C10: voter ids and candidate ids are disjoint namespaces: add_voter leaves
the candidates table unchanged, add_candidate leaves the voters table
unchanged, and registering the same string as both a voter id and a candidate
id succeeds. -/
theorem c10_disjoint_id_namespaces (H : String → String) (st : Blockchain) :
    (∀ fuel txT bT id nm r st',
        Blockchain.add_voter H fuel txT bT id nm st = some (r, st') →
        st'.candidates = st.candidates)
    ∧ (∀ fuel txT bT id nm r st',
        Blockchain.add_candidate H fuel txT bT id nm st = some (r, st') →
        st'.voters = st.voters)
    ∧ (∀ f1 t1 b1 f2 t2 b2 id nm1 nm2 st1 r st2,
        Blockchain.add_voter H f1 t1 b1 id nm1 st = some (.success, st1) →
        assocGet st.candidates (strip id) = none →
        (strip nm2).isEmpty = false →
        Blockchain.add_candidate H f2 t2 b2 id nm2 st1 = some (r, st2) →
        r = .success) := by
  refine ⟨?_, ?_, ?_⟩
  · intro fuel txT bT id nm r st' h
    rcases add_voter_cases H fuel txT bT id nm st r st' h with
      ⟨-, hst, -⟩ | ⟨-, hst, -⟩ | ⟨-, -, -, -, hcs, -, -, -, -⟩
    · rw [hst]
    · rw [hst]
    · exact hcs
  · intro fuel txT bT id nm r st' h
    rcases add_candidate_cases H fuel txT bT id nm st r st' h with
      ⟨-, hst, -⟩ | ⟨-, hst, -⟩ | ⟨-, -, -, -, hvs, -, -, -, -⟩
    · rw [hst]
    · rw [hst]
    · exact hvs
  · intro f1 t1 b1 f2 t2 b2 id nm1 nm2 st1 r st2 h1 hcnone hnm2 h2
    rcases add_voter_cases H f1 t1 b1 id nm1 st .success st1 h1 with
      ⟨hr, -, -⟩ | ⟨hr, -, -⟩ | ⟨-, he, -, -, hcs, -, -, -, -⟩
    · exact absurd hr (by decide)
    · exact absurd hr (by decide)
    · have hid : (strip id).isEmpty = false := by
        rcases Bool.or_eq_false_iff.mp he with ⟨h1e, -⟩
        exact h1e
      have he2 : ((strip id).isEmpty || (strip nm2).isEmpty) = false := by
        rw [hid, hnm2]; rfl
      have hc1 : assocGet st1.candidates (strip id) = none := by rw [hcs]; exact hcnone
      exact (add_candidate_success H f2 t2 b2 id nm2 st1 r st2 he2 hc1 h2).1

theorem c10_disjoint_id_namespaces_witness :
    (OpResult.success : OpResult) = .success :=
  (c10_disjoint_id_namespaces H0 stG).2.2 1 1 2 1 3 4 "V1" "Alice" "RoseAsVoter"
    stW .success ⟨1, [gW, bW1, ⟨2, 4, [⟨"ADD_CANDIDATE", .candidateP "V1" "RoseAsVoter", 3⟩], "0", 0, 1, "0"⟩],
      [("V1", ⟨"V1", "Alice", false⟩)], [("V1", ⟨"V1", "RoseAsVoter"⟩)]⟩
    (by decide) (by decide) (by decide) (by decide)

theorem applyChange_hash_or_calc (H : String → String) (b : Block) (c : FieldChange) :
    (applyChange b c).hash = b.hash
      ∨ Block.calculate_hash H (applyChange b c) = Block.calculate_hash H b := by
  cases c
  · exact Or.inl rfl
  · exact Or.inl rfl
  · exact Or.inl rfl
  · exact Or.inl rfl
  · exact Or.inl rfl
  · exact Or.inl rfl
  · exact Or.inr rfl

theorem tamper_detected (H : String → String) (pfx : String) (p b : Block)
    (c : FieldChange) (hgb : goodBlock H pfx p.hash b = true)
    (hcoll : Block.calculate_hash H (applyChange b c) = Block.calculate_hash H b →
        (applyChange b c).previous_hash ≠ b.previous_hash
          ∨ (applyChange b c).hash ≠ b.hash) :
    (applyChange b c).hash ≠ Block.calculate_hash H (applyChange b c)
      ∨ strStartsWith (applyChange b c).hash pfx = false
      ∨ (applyChange b c).previous_hash ≠ p.hash := by
  rw [goodBlock, Bool.and_eq_true, Bool.and_eq_true, beq_iff_eq, beq_iff_eq] at hgb
  obtain ⟨⟨h1, -⟩, h3⟩ := hgb
  by_cases hb' : (applyChange b c).hash = Block.calculate_hash H (applyChange b c)
  · by_cases hcalc :
        Block.calculate_hash H (applyChange b c) = Block.calculate_hash H b
    · rcases hcoll hcalc with hprev | hhash
      · exact Or.inr (Or.inr (fun hcon => hprev (hcon.trans h3.symm)))
      · exact absurd (hb'.trans (hcalc.trans h1.symm)) hhash
    · rcases applyChange_hash_or_calc H b c with hsame | hcalceq
      · exact absurd (hb'.symm.trans (hsame.trans h1)) hcalc
      · exact absurd hcalceq hcalc
  · exact Or.inl hb'

/-- C3: on any reachable chain, changing any single stored field of any
non-genesis block (index, timestamp, the transaction list, previous_hash,
nonce, difficulty, or the stored hash itself) makes validate_chain report
invalid at that block's index, provided the change actually alters the block
and — for the fields that feed the hash recomputation — the recomputed digest
of the altered serialization differs from the original one (no hash
collision). -/
theorem c3_tamper_invalidates (H : String → String) (fuel gT gB d : Nat)
    (st0 st : Blockchain) (ops : List Op)
    (hinit : Blockchain.init H fuel gT gB d = some st0)
    (hrun : runOps H st0 ops = some st)
    (g : Block) (rest : List Block) (hch : st.chain = g :: rest)
    (j : Nat) (b : Block) (hj : rest[j]? = some b)
    (c : FieldChange) (hne : applyChange b c ≠ b)
    (hcoll : Block.calculate_hash H (applyChange b c) = Block.calculate_hash H b →
        (applyChange b c).previous_hash ≠ b.previous_hash
          ∨ (applyChange b c).hash ≠ b.hash) :
    Blockchain.validate_chain H { st with chain := g :: rest.set j (applyChange b c) }
      = .invalid (j + 1) := by
  obtain ⟨⟨g0, rest0, hch0, hgood⟩, -⟩ :=
    inv_runOps H ops st0 st (inv_init H fuel gT gB d st0 hinit) hrun
  rw [hch] at hch0
  injection hch0 with hg0 hr0
  rw [← hg0, ← hr0] at hgood
  obtain ⟨hlt, hget⟩ := List.getElem?_eq_some.mp hj
  have hdrop : rest.drop j = b :: rest.drop (j + 1) := by
    rw [List.drop_eq_getElem_cons hlt, hget]
  have hdecomp : rest.take j ++ b :: rest.drop (j + 1) = rest := by
    rw [← hdrop, List.take_append_drop]
  rw [← hdecomp, goodChain_append, Bool.and_eq_true] at hgood
  obtain ⟨hg1, hg2⟩ := hgood
  rw [goodChain, Bool.and_eq_true] at hg2
  obtain ⟨hgb, -⟩ := hg2
  rw [← lastBlock_hash] at hgb
  have hkey := tamper_detected H (zeros st.difficulty) (lastBlock g (rest.take j))
    b c hgb hcoll
  simp only [Blockchain.validate_chain]
  rw [List.set_eq_take_cons_drop _ hlt,
    validateFrom_append_of_good H (zeros st.difficulty) (rest.take j) _ g 1 hg1,
    validateFrom_cons_invalid H (zeros st.difficulty) _ _ _ _ hkey,
    List.length_take, Nat.min_eq_left (Nat.le_of_lt hlt), Nat.add_comm]

theorem c3_tamper_invalidates_witness :
    Blockchain.validate_chain H0
        { stW with chain := gW :: [bW1].set 0 (applyChange bW1 (.chPrev "1")) }
      = .invalid (0 + 1) :=
  c3_tamper_invalidates H0 1 0 0 1 stG stW [.addVoter "V1" "Alice" 1 1 2]
    (by decide) (by decide) gW [bW1] rfl 0 bW1 (by decide) (.chPrev "1")
    (by decide) (by decide)

end VotingSystem
